import Mathlib

/-!
Verification development for the asciinema-scenario engine (src/main.rs).

The engine reads a line-oriented scenario script and emits timestamped
terminal output events, while accumulating "preview lines" for an optional
SVG rendering.  Times are `f64` in the source; we model them exactly with
the type `F` below: a rational number, or one of the special values
`nan`, `inf`, `ninf` that `f64` parsing of `"nan"` / `"inf"` can produce.
Rational arithmetic idealises binary floating point (all values reached by
the claims are exact decimals), while the special values follow IEEE
addition rules, which is what `+=` on `f64` does with them.
-/

namespace Scenario

/-- Model of an `f64` value: a finite rational or a special IEEE value. -/
inductive F where
  | nan : F
  | inf : F
  | ninf : F
  | fin : ℚ → F
deriving DecidableEq, Repr

/-- IEEE addition on the float model: `nan` absorbs, opposite infinities
give `nan`, an infinity absorbs finite values. -/
def F.add (x y : F) : F :=
  match x, y with
  | .nan, _ => .nan
  | _, .nan => .nan
  | .inf, .ninf => .nan
  | .ninf, .inf => .nan
  | .inf, _ => .inf
  | _, .inf => .inf
  | .ninf, _ => .ninf
  | _, .ninf => .ninf
  | .fin a, .fin b => .fin (a + b)

instance : Add F := ⟨F.add⟩

/-- Rounding a rational to two decimal places (nearest hundredth), the
model of Rust's `format!("{:.2}", t)` followed by re-parsing. -/
def round2q (q : ℚ) : ℚ := (Rat.floor (q * 100 + 1 / 2) : ℚ) / 100

/-- Rounding on the float model: formatting and re-parsing a special value
reproduces it, a finite value is rounded to two decimals. -/
def F.round2 : F → F
  | .fin q => .fin (round2q q)
  | x => x

/-- Event kind of the asciicast entry; the engine only ever emits `Output`
(`EventType::Output` in the source). -/
inductive EventType where
  | Output : EventType
deriving DecidableEq, Repr

/-- One asciicast entry: a timestamped piece of terminal output
(`asciicast::Entry` as used by the source). -/
structure Entry where
  time : F
  event_type : EventType
  event_data : String
deriving DecidableEq, Repr

/-- `print_entry` in the source: the printed entry carries the time rounded
to two decimal places (`format!("{:.2}", entry.time)` re-parsed); the data
and kind are unchanged.  We model the emitted JSON line by the entry that
gets serialised. -/
def print_entry (e : Entry) : Entry :=
  { e with time := e.time.round2 }

/-- The typing loop inside `echo_typing`: for each character, advance the
cursor by one step, emit a bright-on escape first when the character is
`#` (recording that bright mode was applied), then emit the character
itself at the same time.  Returns the final cursor, the emitted entries in
order, and the bright flag. -/
def typingLoop (step : ℚ) : List Char → F → Bool → F × List Entry × Bool
  | [], t, b => (t, [], b)
  | c :: cs, t, b =>
    let t' := t + F.fin step
    let pre : List Entry :=
      if c = '#' then [print_entry ⟨t', .Output, "\x1b[1m"⟩] else []
    let b' := if c = '#' then true else b
    let r := typingLoop step cs t' b'
    (r.1, pre ++ [print_entry ⟨t', .Output, String.singleton c⟩] ++ r.2.1, r.2.2)

/-- `echo_typing` in the source: type every character of `line_raw`, emit a
single bright-off escape if bright mode was ever applied, then advance by
three steps and emit the carriage-return/newline. -/
def echo_typing (time : F) (step : ℚ) (line_raw : String) : F × List Entry :=
  let r := typingLoop step line_raw.toList time false
  let evs := r.2.1 ++ (if r.2.2 then [print_entry ⟨r.1, .Output, "\x1b[0m"⟩] else [])
  let t2 := r.1 + F.fin (3 * step)
  (t2, evs ++ [print_entry ⟨t2, .Output, "\r\n"⟩])

/-- `echo_console_line` in the source: advance one step, emit the prompt
(colored label followed by `$ ` when the label is non-empty, plain `$ `
otherwise), advance three steps, then run `echo_typing`; the preview line
collected is the pair of the prompt label and the raw typed text. -/
def echo_console_line (time : F) (step : ℚ) (prompt line : String) :
    F × List Entry × List String :=
  let t1 := time + F.fin step
  let prompt_line : String :=
    if prompt ≠ "" then "\x1b[32m" ++ prompt ++ "\x1b[0m$ " else "$ "
  let r := echo_typing (t1 + F.fin (3 * step)) step line
  (r.1, print_entry ⟨t1, .Output, prompt_line⟩ :: r.2, [prompt, line])

/-- `clear_terminal` in the source: advance eighteen steps, emit the
clear-and-home escape sequence, then advance three more steps. -/
def clear_terminal (time : F) (step : ℚ) : F × List Entry :=
  let t1 := time + F.fin (18 * step)
  (t1 + F.fin (3 * step), [print_entry ⟨t1, .Output, "\r\x1b[2J\r\x1b[H"⟩])

/-! ### Model of Rust's `f64::from_str`
Used by the `#timeout:` branch (`stripped.trim().parse()?`).  The grammar
accepts an optional sign, then `inf`/`infinity`/`nan` (case-insensitive) or
a decimal number `digits [. digits] [e [sign] digits]` where the mantissa
has at least one digit.  The numeric value is taken exactly (a rational),
idealising the rounding to the nearest double. -/

/-- Value of a digit string, most significant first. -/
def digitsVal (cs : List Char) : ℕ :=
  cs.foldl (fun a c => 10 * a + (c.toNat - '0'.toNat)) 0

/-- Parse a non-empty all-digit string. -/
def parseDigits (cs : List Char) : Option ℕ :=
  if cs ≠ [] ∧ cs.all Char.isDigit then some (digitsVal cs) else none

/-- Parse an optionally signed decimal integer (the exponent body). -/
def parseSignedInt (cs : List Char) : Option ℤ :=
  match cs with
  | '+' :: ds => (parseDigits ds).map (fun n => (n : ℤ))
  | '-' :: ds => (parseDigits ds).map (fun n => -(n : ℤ))
  | ds => (parseDigits ds).map (fun n => (n : ℤ))

/-- Parse the tail after the mantissa: empty, or `e` plus a signed count. -/
def parseExpPart (cs : List Char) : Option ℤ :=
  match cs with
  | [] => some 0
  | 'e' :: rest => parseSignedInt rest
  | _ => none

/-- Mantissa value: integer digits plus fractional digits scaled down. -/
def mantVal (ip fp : List Char) : ℚ :=
  (digitsVal ip : ℚ) + (digitsVal fp : ℚ) / (10 : ℚ) ^ fp.length

/-- Parse an unsigned decimal number (mantissa and optional exponent). -/
def parseNumber (cs : List Char) : Option ℚ :=
  let ip := cs.takeWhile Char.isDigit
  let rest := cs.dropWhile Char.isDigit
  match rest with
  | '.' :: rest2 =>
    let fp := rest2.takeWhile Char.isDigit
    let rest3 := rest2.dropWhile Char.isDigit
    if ip.isEmpty ∧ fp.isEmpty then none
    else (parseExpPart rest3).map (fun e => mantVal ip fp * (10 : ℚ) ^ e)
  | _ =>
    if ip.isEmpty then none
    else (parseExpPart rest).map (fun e => (digitsVal ip : ℚ) * (10 : ℚ) ^ e)

/-- Parse the body after the optional sign. -/
def parseUnsigned (cs : List Char) (neg : Bool) : Option F :=
  if cs = "inf".toList ∨ cs = "infinity".toList then
    some (if neg then F.ninf else F.inf)
  else if cs = "nan".toList then some F.nan
  else (parseNumber cs).map (fun q => F.fin (if neg then -q else q))

/-- Model of `"…".parse::<f64>()`: optional sign, then keyword or number;
keywords are matched case-insensitively (we lowercase up front, which also
normalises `E` in exponents and leaves digits and punctuation alone). -/
def parseF64 (s : String) : Option F :=
  match s.toList.map Char.toLower with
  | '+' :: rest => parseUnsigned rest false
  | '-' :: rest => parseUnsigned rest true
  | rest => parseUnsigned rest false

/-! ### Line classification and the main loop -/

/-- `str::starts_with(pat)` on strings: the pattern's characters are a
prefix of the line's characters. -/
def startsWithS (line pat : String) : Bool :=
  pat.toList.isPrefixOf line.toList

/-- Remainder of a `strip_prefix` match: the line with the pattern's
character count dropped from the front. -/
def dropS (line : String) (n : ℕ) : String :=
  String.mk (line.toList.drop n)

/-- `str::trim`: whitespace removed from both ends. -/
def trimS (line : String) : String :=
  String.mk (((line.toList.dropWhile Char.isWhitespace).reverse.dropWhile
    Char.isWhitespace).reverse)

/-- The classified line variants, mirroring the if/else chain of `main`:
header skip, timeout directive (holding the raw remainder, parsed later),
comment, console command with prompt label and typed text, clear
directive, blank line, plain text. -/
inductive CLine where
  | headerSkip : CLine
  | timeoutDir : String → CLine
  | comment : CLine
  | command : String → String → CLine
  | clearDir : CLine
  | blank : CLine
  | plain : String → CLine
deriving DecidableEq, Repr

/-- The if/else chain of `main`, first match wins: position 0 with `#! `
is the already-consumed header; `#timeout:` keeps the remainder;
other `#` lines are comments; `$ ` and `(nix-shell) $ ` are commands;
`--` clears; whitespace-only is blank; anything else is plain. -/
def classify (index : ℕ) (line : String) : CLine :=
  if index == 0 && startsWithS line "#! " then .headerSkip
  else if startsWithS line "#timeout:" then .timeoutDir (dropS line 9)
  else if startsWithS line "#" then .comment
  else if startsWithS line "$ " then .command "" (dropS line 2)
  else if startsWithS line "(nix-shell) $ " then .command "(nix-shell) " (dropS line 14)
  else if startsWithS line "--" then .clearDir
  else if trimS line == "" then .blank
  else .plain line

/-- The engine state threaded through the main loop: the time cursor, the
entries printed so far (in emission order), and the accumulated preview
lines. -/
structure EngineState where
  time : F
  events : List Entry
  previews : List (List String)
deriving DecidableEq, Repr

/-- Processing of one enumerated line in the main loop.  A malformed
timeout value is the only failure (`parse()?`). -/
def processLine (step : ℚ) (index : ℕ) (line : String) (st : EngineState) :
    Except Unit EngineState :=
  match classify index line with
  | .headerSkip => .ok st
  | .timeoutDir raw =>
    match parseF64 (trimS raw) with
    | some v => .ok { st with time := st.time + v }
    | none => .error ()
  | .comment => .ok st
  | .command prompt txt =>
    let r := echo_console_line st.time step prompt txt
    .ok { time := r.1, events := st.events ++ r.2.1, previews := st.previews ++ [r.2.2] }
  | .clearDir =>
    let r := clear_terminal st.time step
    .ok { st with time := r.1, events := st.events ++ r.2 }
  | .blank => .ok { st with time := st.time + F.fin (3 * step) }
  | .plain txt =>
    .ok { st with
          events := st.events ++ [print_entry ⟨st.time, .Output, txt ++ "\r\n"⟩],
          previews := st.previews ++ [[txt]] }

/-- The main loop over the enumerated lines.  On a failure the run aborts:
already-emitted entries remain and the `Bool` flag records the abort. -/
def runLines (step : ℚ) : ℕ → List String → EngineState → EngineState × Bool
  | _, [], st => (st, false)
  | i, l :: ls, st =>
    match processLine step i l st with
    | .ok st' => runLines step (i + 1) ls st'
    | .error _ => (st, true)

/-- The initial engine state: the cursor starts at `3 × step`, nothing
emitted (`let mut time = 3.0 * header.step`). -/
def initialState (step : ℚ) : EngineState :=
  { time := F.fin (3 * step), events := [], previews := [] }

/-- A whole run of the engine body on the scenario lines. -/
def runScenario (step : ℚ) (ls : List String) : EngineState × Bool :=
  runLines step 0 ls (initialState step)

/-! ### The SVG preview renderer
The renderer (the `svg_preview_file` branch of `main`) turns each preview
line into one `tspan` row.  We model the text nodes appended to a row:
an unstyled text node, a `fg-15` (emphasis) span, or a `fg-2` span. -/

/-- A rendered node inside one preview row: unstyled text, an emphasis
(`fg-15`) span, or a `fg-2` span. -/
inductive RNode where
  | plain : String → RNode
  | fg15 : String → RNode
  | fg2 : String → RNode
deriving DecidableEq, Repr

/-- Model of `html_escape::encode_safe` (an external crate, a collaborator
the spec treats as external): the reserved markup characters are replaced
by entities, everything else is kept verbatim.  The claims depend only on
the escaping being applied per segment, not on the crate's exact entity
set. -/
def encode_safe (s : String) : String :=
  s.toList.foldl
    (fun acc c =>
      acc ++ (if c = '&' then "&amp;"
              else if c = '<' then "&lt;"
              else if c = '>' then "&gt;"
              else if c = '"' then "&quot;"
              else if c = '\'' then "&#x27;"
              else String.singleton c))
    ""

/-- Model of `item.splitn(2, '#')`: at most two parts, split at the first
`#`; when no `#` occurs the single part is the whole string. -/
def splitn2 (s : String) : List String :=
  let cs := s.toList
  if cs.contains '#' then
    [String.mk (cs.takeWhile (· ≠ '#')), String.mk ((cs.dropWhile (· ≠ '#')).drop 1)]
  else [s]

/-- Rendering of one preview segment (`item` in the source loop): an empty
segment renders the literal `$ `; otherwise the part before the first `#`
is rendered unstyled (the whole escaped segment when there is no `#`), a
`#` suffix is rendered in a `fg-15` span, and then the whole escaped
segment is appended again in a `fg-2` span. -/
def renderItem (item : String) : List RNode :=
  if item = "" then [.plain "$ "]
  else
    (match splitn2 item with
     | [p] => [RNode.plain (encode_safe p)]
     | p :: rest => [RNode.plain (encode_safe p), RNode.fg15 (encode_safe (String.join rest))]
     | [] => []) ++ [RNode.fg2 (encode_safe item)]

/-- Rendering of one preview line: the nodes of its segments in order. -/
def renderRow (row : List String) : List RNode :=
  (row.map renderItem).flatten

/-- The preview lines the specification predicts for a list of input lines
starting at a given index: one `[prompt, text]` entry per command line, one
`[text]` entry per plain line, in input order, nothing for the other
variants.  Stated from the spec's words, to be compared with the engine. -/
def previewsSpec : ℕ → List String → List (List String)
  | _, [] => []
  | i, l :: ls =>
    (match classify i l with
     | .command p t => [[p, t]]
     | .plain t => [[t]]
     | _ => []) ++ previewsSpec (i + 1) ls

/-! ## Helper lemmas -/

theorem F.fin_add_fin (a b : ℚ) : F.fin a + F.fin b = F.fin (a + b) := rfl

theorem F.nan_add (y : F) : F.nan + y = F.nan := by
  cases y <;> rfl

theorem F.add_fin_fin (x : F) (a b : ℚ) :
    x + F.fin a + F.fin b = x + F.fin (a + b) := by
  cases x with
  | fin c => show F.fin (c + a + b) = F.fin (c + (a + b))
             rw [add_assoc]
  | nan => rfl
  | inf => rfl
  | ninf => rfl

theorem F.add_fin_zero (x : F) : x + F.fin 0 = x := by
  cases x with
  | fin c => show F.fin (c + 0) = F.fin c
             rw [add_zero]
  | nan => rfl
  | inf => rfl
  | ninf => rfl

theorem F.round2_fin (q : ℚ) : (F.fin q).round2 = F.fin (round2q q) := rfl

theorem F.round2_nan : F.nan.round2 = F.nan := rfl

theorem round2q_eq_self (q : ℚ) (n : ℤ) (h : q * 100 = (n : ℚ)) :
    round2q q = q := by
  have h2 : q * 100 + 1 / 2 = ((2 * n + 1 : ℤ) : ℚ) / ((2 : ℕ) : ℚ) := by
    push_cast
    linarith
  have h3 : Rat.floor (q * 100 + 1 / 2) = n := by
    have hfl : Rat.floor (q * 100 + 1 / 2) = ⌊q * 100 + 1 / 2⌋ := rfl
    rw [hfl, h2, Rat.floor_intCast_div_natCast]
    omega
  rw [round2q, h3]
  linarith

theorem round2q_eval (q : ℚ) (n : ℤ) (h : q * 100 = (n : ℚ)) :
    round2q q = (n : ℚ) / 100 := by
  have h0 : q = (n : ℚ) / 100 := by linarith
  rw [round2q_eq_self q n h, h0]

theorem classify_dollar (i : ℕ) : classify i "$ " = .command "" "" := by
  simp [classify, show startsWithS "$ " "#! " = false from by decide,
    show startsWithS "$ " "#timeout:" = false from by decide,
    show startsWithS "$ " "#" = false from by decide,
    show startsWithS "$ " "$ " = true from by decide,
    show dropS "$ " 2 = "" from by decide, Bool.and_false]

theorem beq_false_of_length_ne (a b : String) (h : a.length ≠ b.length) :
    (a == b) = false := by
  rw [beq_eq_false_iff_ne]
  intro hEq
  exact h (by rw [hEq])

theorem singleton_length (c : Char) : (String.singleton c).length = 1 := rfl

theorem typingLoop_counts (step : ℚ) (cs : List Char) (t : F) (b : Bool) :
    ((typingLoop step cs t b).2.1.countP (fun e => e.event_data.length == 1)
      = cs.length)
    ∧ ((typingLoop step cs t b).2.1.countP (fun e => e.event_data == "\x1b[1m")
      = cs.count '#')
    ∧ ((typingLoop step cs t b).2.1.countP (fun e => e.event_data == "\x1b[0m")
      = 0) := by
  induction cs generalizing t b with
  | nil => simp [typingLoop]
  | cons c cs ih =>
    have hsing : ((String.singleton c).length == 1) = true := by
      rw [singleton_length]
      rfl
    have hson : (String.singleton c == "\x1b[1m") = false :=
      beq_false_of_length_ne _ _ (by rw [singleton_length]; decide)
    have hsoff : (String.singleton c == "\x1b[0m") = false :=
      beq_false_of_length_ne _ _ (by rw [singleton_length]; decide)
    by_cases hc : c = '#'
    · subst hc
      simp [typingLoop, List.countP_append, List.countP_cons, print_entry,
        (ih _ _).1, (ih _ _).2.1, (ih _ _).2.2, hsing, hson, hsoff,
        List.count_cons, show ¬("\x1b[1m" : String).length = 1 from by decide]
    · simp [typingLoop, hc, List.countP_append, List.countP_cons, print_entry,
        (ih _ _).1, (ih _ _).2.1, (ih _ _).2.2, hsing, hson, hsoff,
        List.count_cons, show ¬("\x1b[1m" : String).length = 1 from by decide]

theorem typingLoop_bright (step : ℚ) (cs : List Char) (t : F) (b : Bool) :
    (typingLoop step cs t b).2.2 = (b || cs.contains '#') := by
  induction cs generalizing t b with
  | nil => simp [typingLoop]
  | cons c cs ih =>
    by_cases hc : c = '#'
    · subst hc
      simp [typingLoop, ih]
    · simp [typingLoop, hc, ih, Ne.symm hc]

/-! ## Claims -/

/-- C1: with the default step `0.10` and the single input line `$ ls`, the
engine starts with cursor `0.3`, emits the prompt at `0.4`, one keystroke
per character of `ls` at `0.8` and `0.9`, and the carriage-return/newline
at `1.2`, ending with the cursor at `1.2`. -/
theorem claim_C1 :
    runScenario (1/10) ["$ ls"] =
      ({ time := F.fin (12/10),
         events := [⟨F.fin (4/10), .Output, "$ "⟩,
                    ⟨F.fin (8/10), .Output, "l"⟩,
                    ⟨F.fin (9/10), .Output, "s"⟩,
                    ⟨F.fin (12/10), .Output, "\r\n"⟩],
         previews := [["", "ls"]] }, false)
    ∧ (initialState (1/10)).time = F.fin (3/10) := by
  constructor
  · simp only [runScenario, runLines, processLine,
      show classify 0 "$ ls" = .command "" "ls" from by decide, initialState,
      echo_console_line, echo_typing, typingLoop, print_entry,
      F.fin_add_fin, F.round2_fin]
    simp only [if_neg (show ¬('l' = '#') from by decide),
      if_neg (show ¬('s' = '#') from by decide),
      if_neg (show ¬("" ≠ "") from by decide),
      Bool.false_eq_true, if_neg (show ¬False from not_false),
      List.nil_append, List.append_nil, List.cons_append, List.singleton_append]
    rw [round2q_eval _ 40 (by norm_num), round2q_eval _ 80 (by norm_num),
      round2q_eval _ 90 (by norm_num), round2q_eval _ 120 (by norm_num)]
    norm_num
    exact ⟨rfl, rfl⟩
  · show F.fin (3 * (1/10)) = F.fin (3/10)
    norm_num

theorem empty_append_str (s : String) : "" ++ s = s := rfl

theorem toList_length (s : String) : s.toList.length = s.length := rfl

theorem typingLoop_time (step : ℚ) (cs : List Char) (t : F) (b : Bool) :
    (typingLoop step cs t b).1 = t + F.fin ((cs.length : ℚ) * step) := by
  induction cs generalizing t b with
  | nil => simp [typingLoop, F.add_fin_zero]
  | cons c cs ih =>
    simp only [typingLoop, ih, F.add_fin_fin, List.length_cons]
    congr 1
    push_cast
    ring_nf

theorem echo_console_line_time (time : F) (step : ℚ) (p l : String) :
    (echo_console_line time step p l).1
      = time + F.fin (((l.length : ℚ) + 7) * step) := by
  simp only [echo_console_line, echo_typing, typingLoop_time, F.add_fin_fin,
    toList_length]
  congr 1
  ring_nf

/-- C2 as stated is false on the code: a `#timeout:` directive with a
negative value is accepted and moves the cursor backwards, below its
starting value and below zero — here from `0.3` to `-0.7`. -/
theorem counterexample_C2 :
    (runScenario (1/10) ["#timeout: -1"]).1.time = F.fin (-(7/10))
    ∧ ((-(7/10) : ℚ) < 3 * (1/10)) ∧ ((-(7/10) : ℚ) < 0)
    ∧ (initialState (1/10)).time = F.fin (3 * (1/10)) := by
  have hp : parseF64 (trimS " -1")
      = some (F.fin (-((digitsVal ['1'] : ℚ) * 10 ^ (0 : ℤ)))) := rfl
  rw [show digitsVal ['1'] = 1 from by decide] at hp
  norm_num at hp
  refine ⟨?_, by norm_num, by norm_num, rfl⟩
  simp only [runScenario, runLines, processLine, initialState,
    show classify 0 "#timeout: -1" = CLine.timeoutDir " -1" from by decide,
    hp, F.fin_add_fin]
  norm_num

/-- C2 amended: provided the step is non-negative and every timeout
directive carries a finite non-negative value, no processed line makes the
cursor smaller than it was before that line, and the cursor stays
non-negative. -/
theorem claim_C2 (step : ℚ) (i : ℕ) (line : String) (st st' : EngineState)
    (q : ℚ) (hstep : 0 ≤ step) (ht : st.time = F.fin q) (hq : 0 ≤ q)
    (hto : ∀ raw, classify i line = .timeoutDir raw →
      ∃ v, parseF64 (trimS raw) = some (F.fin v) ∧ 0 ≤ v)
    (h : processLine step i line st = .ok st') :
    ∃ q', st'.time = F.fin q' ∧ q ≤ q' ∧ 0 ≤ q' := by
  cases hc : classify i line with
  | headerSkip =>
    simp only [processLine, hc, Except.ok.injEq] at h
    subst h
    exact ⟨q, ht, le_rfl, hq⟩
  | comment =>
    simp only [processLine, hc, Except.ok.injEq] at h
    subst h
    exact ⟨q, ht, le_rfl, hq⟩
  | timeoutDir raw =>
    obtain ⟨v, hv, hv0⟩ := hto raw hc
    simp only [processLine, hc, hv, Except.ok.injEq] at h
    subst h
    refine ⟨q + v, ?_, by linarith, by linarith⟩
    simp [ht, F.fin_add_fin]
  | command p t =>
    simp only [processLine, hc, Except.ok.injEq] at h
    subst h
    refine ⟨q + ((t.length : ℚ) + 7) * step, ?_, ?_, ?_⟩
    · simp [echo_console_line_time, ht, F.fin_add_fin]
    · have : 0 ≤ ((t.length : ℚ) + 7) * step :=
        mul_nonneg (by positivity) hstep
      linarith
    · have : 0 ≤ ((t.length : ℚ) + 7) * step :=
        mul_nonneg (by positivity) hstep
      linarith
  | clearDir =>
    simp only [processLine, hc, Except.ok.injEq] at h
    subst h
    refine ⟨q + 21 * step, ?_, by nlinarith, by nlinarith⟩
    simp only [clear_terminal, F.add_fin_fin, ht, F.fin_add_fin]
    congr 1
    ring
  | blank =>
    simp only [processLine, hc, Except.ok.injEq] at h
    subst h
    refine ⟨q + 3 * step, ?_, by nlinarith, by nlinarith⟩
    simp [ht, F.fin_add_fin]
  | plain t =>
    simp only [processLine, hc, Except.ok.injEq] at h
    subst h
    exact ⟨q, ht, le_rfl, hq⟩

/-- Witness for C2 (amended) at a blank line and the initial state. -/
theorem claim_C2_witness :
    ∃ q', (⟨F.fin (3 * (1/10) + 3 * (1/10)), [], []⟩ : EngineState).time
        = F.fin q' ∧ 3 * (1/10 : ℚ) ≤ q' ∧ 0 ≤ q' :=
  claim_C2 (1/10) 0 "" (initialState (1/10))
    ⟨F.fin (3 * (1/10) + 3 * (1/10)), [], []⟩ (3 * (1/10))
    (by norm_num) rfl (by norm_num)
    (fun raw hr => by
      rw [show classify 0 "" = CLine.blank from by decide] at hr
      exact CLine.noConfusion hr)
    rfl

/-- C3 as stated is false on the code: for the marker-free non-empty
segment `ls` the renderer does not render the escaped segment exactly
once — it appends a second, `fg-2`-styled copy of the whole escaped
segment. -/
theorem counterexample_C3 :
    renderItem "ls" ≠ [RNode.plain (encode_safe "ls")]
    ∧ renderItem "ls" = [RNode.plain "ls", RNode.fg2 "ls"] := by
  decide

/-- C3 amended: for every non-empty segment, the renderer emits the
escaped segment unstyled when no `#` marker is present, or the escaped
prefix unstyled followed by the escaped suffix in an emphasis (`fg-15`)
span when one is; in both cases it then additionally appends the whole
escaped segment once more in a `fg-2` span. -/
theorem claim_C3 (item : String) (h : item ≠ "") :
    renderItem item =
      (if item.toList.contains '#' then
        [RNode.plain (encode_safe (String.mk (item.toList.takeWhile (· ≠ '#')))),
         RNode.fg15 (encode_safe (String.mk ((item.toList.dropWhile (· ≠ '#')).drop 1)))]
       else [RNode.plain (encode_safe item)])
      ++ [RNode.fg2 (encode_safe item)] := by
  by_cases hc : item.toList.contains '#'
  · simp only [renderItem, if_neg h, splitn2, hc, if_pos rfl, if_true,
      String.join, List.foldl, empty_append_str]
  · simp only [renderItem, if_neg h, splitn2, hc, Bool.false_eq_true,
      if_false]

/-- Witness for C3 at the concrete segment `l#s`. -/
theorem claim_C3_witness :
    renderItem "l#s" = [RNode.plain "l", RNode.fg15 "s", RNode.fg2 "l#s"] :=
  (claim_C3 "l#s" (by decide)).trans (by decide)

/-- C4: for every command line, the number of keystroke events (events
whose data is a single typed character) equals the character count of the
typed text; one bright-toggle-on event is emitted per `#` character of the
text; and the bright-toggle-off count is exactly one when the text
contains a `#` and zero otherwise. -/
theorem claim_C4 (time : F) (step : ℚ) (prompt txt : String) :
    ((echo_console_line time step prompt txt).2.1.countP
        (fun e => e.event_data.length == 1) = txt.length)
    ∧ ((echo_console_line time step prompt txt).2.1.countP
        (fun e => e.event_data == "\x1b[1m") = txt.toList.count '#')
    ∧ ((echo_console_line time step prompt txt).2.1.countP
        (fun e => e.event_data == "\x1b[0m")
        = if txt.toList.contains '#' then 1 else 0) := by
  have l1 : ("\x1b[32m" : String).length = 5 := by decide
  have l2 : ("\x1b[0m$ " : String).length = 6 := by decide
  have l3 : ("$ " : String).length = 2 := by decide
  have l4 : ("\x1b[1m" : String).length = 4 := by decide
  have l5 : ("\x1b[0m" : String).length = 4 := by decide
  have l6 : ("\r\n" : String).length = 2 := by decide
  have hplen : ¬(if prompt = "" then "$ "
      else "\x1b[32m" ++ prompt ++ "\x1b[0m$ ").length = 1 := by
    by_cases hp : prompt = "" <;> simp [hp, String.length_append, l1, l2, l3]
  have hpon : ((if prompt = "" then "$ "
      else "\x1b[32m" ++ prompt ++ "\x1b[0m$ ") == "\x1b[1m") = false := by
    apply beq_false_of_length_ne
    by_cases hp : prompt = "" <;> simp [hp, String.length_append, l1, l2, l3, l4]
  have hpoff : ((if prompt = "" then "$ "
      else "\x1b[32m" ++ prompt ++ "\x1b[0m$ ") == "\x1b[0m") = false := by
    apply beq_false_of_length_ne
    by_cases hp : prompt = "" <;> simp [hp, String.length_append, l1, l2, l3, l5]
  by_cases hb : '#' ∈ txt.data <;>
    refine ⟨?_, ?_, ?_⟩ <;>
    simp [echo_console_line, echo_typing, List.countP_cons, List.countP_append,
      hplen, hpon, hpoff, hb, typingLoop_counts,
      typingLoop_bright, print_entry, l4, l5, l6, toList_length]

/-- C5: a line classified as a clear directive advances the cursor by
`21 × step` in total (`18 × step` before the event, `3 × step` after),
emits exactly one output event, the clear-and-home escape sequence, at the
intermediate cursor time, and appends no preview line. -/
theorem claim_C5 (step : ℚ) (i : ℕ) (line : String) (st : EngineState)
    (h : classify i line = .clearDir) :
    processLine step i line st = .ok
      { time := st.time + F.fin (21 * step),
        events := st.events ++
          [⟨(st.time + F.fin (18 * step)).round2, .Output, "\r\x1b[2J\r\x1b[H"⟩],
        previews := st.previews } := by
  simp only [processLine, h, clear_terminal, print_entry, F.add_fin_fin]
  rw [show (18 : ℚ) * step + 3 * step = 21 * step by ring]

/-- Witness for C5 at the concrete line `--` and the initial state. -/
theorem claim_C5_witness :
    processLine (1/10) 3 "--" (initialState (1/10)) = .ok
      { time := (initialState (1/10)).time + F.fin (21 * (1/10)),
        events := (initialState (1/10)).events ++
          [⟨((initialState (1/10)).time + F.fin (18 * (1/10))).round2, .Output,
            "\r\x1b[2J\r\x1b[H"⟩],
        previews := (initialState (1/10)).previews } :=
  claim_C5 (1/10) 3 "--" (initialState (1/10)) (by decide)

/-- C7: the run is deterministic — it is a pure function of the input
lines and the header's step, so byte-identical inputs give identical
event streams (there is no hidden time source or randomness anywhere in
the embedded engine). -/
theorem claim_C7 (step step' : ℚ) (ls ls' : List String)
    (h1 : step = step') (h2 : ls = ls') :
    runScenario step ls = runScenario step' ls' := by
  rw [h1, h2]

/-- Witness for C7 at a concrete scenario. -/
theorem claim_C7_witness :
    runScenario (1/10) ["$ ls", "--"] = runScenario (1/10) ["$ ls", "--"] :=
  claim_C7 (1/10) (1/10) ["$ ls", "--"] ["$ ls", "--"] rfl rfl

/-- C10: a line that is exactly `$ ` is a command with empty typed text:
it emits exactly two events — the prompt `$ ` after one step and the
carriage-return/newline after a further six steps — with no keystroke and
no bright toggle; the stored preview line is two empty segments, and the
renderer displays each empty segment as the literal `$ `, so the preview
row shows `$ ` twice. -/
theorem claim_C10 (step : ℚ) (i : ℕ) (st : EngineState) :
    processLine step i "$ " st = .ok
      { time := st.time + F.fin (7 * step),
        events := st.events ++
          [⟨(st.time + F.fin step).round2, .Output, "$ "⟩,
           ⟨(st.time + F.fin (7 * step)).round2, .Output, "\r\n"⟩],
        previews := st.previews ++ [["", ""]] }
    ∧ renderRow ["", ""] = [.plain "$ ", .plain "$ "] := by
  constructor
  · simp only [processLine, classify_dollar, echo_console_line, echo_typing,
      typingLoop, print_entry, if_neg (show ¬("" ≠ "") from by decide),
      Bool.false_eq_true, if_neg (show ¬False from not_false),
      List.nil_append, List.append_nil, F.add_fin_fin]
    rw [show step + 3 * step + 3 * step = 7 * step by ring]
  · decide

theorem typingLoop_nan (step : ℚ) (cs : List Char) (b : Bool) :
    (typingLoop step cs F.nan b).1 = F.nan
    ∧ ∀ e ∈ (typingLoop step cs F.nan b).2.1, e.time = F.nan := by
  induction cs generalizing b with
  | nil => simp [typingLoop]
  | cons c cs ih =>
    simp only [typingLoop, F.nan_add]
    refine ⟨(ih _).1, ?_⟩
    intro e he
    simp only [List.mem_append, List.mem_singleton] at he
    rcases he with (he | he) | he
    · by_cases hc : c = '#' <;> simp [hc, print_entry, F.round2_nan] at he
      · rw [he]
    · rw [he]
      rfl
    · exact (ih _).2 e he

theorem echo_typing_nan (step : ℚ) (l : String) :
    (echo_typing F.nan step l).1 = F.nan
    ∧ ∀ e ∈ (echo_typing F.nan step l).2, e.time = F.nan := by
  have h1 := (typingLoop_nan step l.data false).1
  have h2 := (typingLoop_nan step l.data false).2
  constructor
  · simp [echo_typing, h1, F.nan_add]
  · intro e he
    simp only [echo_typing, h1, F.nan_add, List.mem_append] at he
    rcases he with (he | he) | he
    · exact h2 e he
    · by_cases hb : (typingLoop step l.data F.nan false).2.2 <;>
        simp [hb] at he
      rw [he]
      simp [print_entry, h1, F.round2_nan]
    · simp only [List.mem_singleton] at he
      rw [he]
      simp [print_entry, h1, F.nan_add, F.round2_nan]

theorem processLine_nan (step : ℚ) (i : ℕ) (line : String)
    (st st' : EngineState) (ht : st.time = F.nan)
    (h : processLine step i line st = .ok st') :
    st'.time = F.nan ∧ ∀ e ∈ st'.events, e ∈ st.events ∨ e.time = F.nan := by
  cases hc : classify i line with
  | headerSkip =>
    simp only [processLine, hc, Except.ok.injEq] at h
    subst h
    exact ⟨ht, fun e he => Or.inl he⟩
  | comment =>
    simp only [processLine, hc, Except.ok.injEq] at h
    subst h
    exact ⟨ht, fun e he => Or.inl he⟩
  | timeoutDir raw =>
    cases hv : parseF64 (trimS raw) with
    | none =>
      simp only [processLine, hc, hv] at h
      exact Except.noConfusion h
    | some v =>
      simp only [processLine, hc, hv, Except.ok.injEq] at h
      subst h
      exact ⟨by simp [ht, F.nan_add], fun e he => Or.inl he⟩
  | command p t =>
    simp only [processLine, hc, Except.ok.injEq] at h
    subst h
    constructor
    · show (echo_console_line st.time step p t).1 = F.nan
      simp only [echo_console_line, ht, F.nan_add]
      exact (echo_typing_nan step t).1
    · intro e he
      simp only [List.mem_append] at he
      rcases he with he | he
      · exact Or.inl he
      · refine Or.inr ?_
        simp only [echo_console_line, ht, F.nan_add, List.mem_cons] at he
        rcases he with he | he
        · rw [he]
          rfl
        · exact (echo_typing_nan step t).2 e he
  | clearDir =>
    simp only [processLine, hc, Except.ok.injEq] at h
    subst h
    refine ⟨by simp [clear_terminal, ht, F.nan_add], ?_⟩
    intro e he
    simp only [clear_terminal, ht, F.nan_add, List.mem_append,
      List.mem_singleton] at he
    rcases he with he | he
    · exact Or.inl he
    · refine Or.inr ?_
      rw [he]
      rfl
  | blank =>
    simp only [processLine, hc, Except.ok.injEq] at h
    subst h
    exact ⟨by simp [ht, F.nan_add], fun e he => Or.inl he⟩
  | plain t =>
    simp only [processLine, hc, Except.ok.injEq] at h
    subst h
    refine ⟨ht, ?_⟩
    intro e he
    simp only [List.mem_append, List.mem_singleton] at he
    rcases he with he | he
    · exact Or.inl he
    · refine Or.inr ?_
      rw [he, print_entry, ht]
      rfl

theorem runLines_nan (step : ℚ) (i : ℕ) (ls : List String)
    (st : EngineState) (ht : st.time = F.nan) :
    (runLines step i ls st).1.time = F.nan
    ∧ ∀ e ∈ (runLines step i ls st).1.events,
        e ∈ st.events ∨ e.time = F.nan := by
  induction ls generalizing i st with
  | nil => exact ⟨ht, fun e he => Or.inl he⟩
  | cons l ls ih =>
    simp only [runLines]
    cases hp : processLine step i l st with
    | ok stm =>
      obtain ⟨h1, h2⟩ := processLine_nan step i l st stm ht hp
      obtain ⟨h3, h4⟩ := ih (i + 1) stm h1
      refine ⟨h3, ?_⟩
      intro e he
      rcases h4 e he with he2 | he2
      · exact h2 e he2
      · exact Or.inr he2
    | error e => exact ⟨ht, fun e he => Or.inl he⟩

theorem processLine_previews (step : ℚ) (i : ℕ) (line : String)
    (st st' : EngineState) (h : processLine step i line st = .ok st') :
    st'.previews = st.previews ++
      (match classify i line with
       | .command p t => [[p, t]]
       | .plain t => [[t]]
       | _ => []) := by
  cases hc : classify i line with
  | timeoutDir raw =>
    cases hv : parseF64 (trimS raw) with
    | none =>
      simp only [processLine, hc, hv] at h
      exact Except.noConfusion h
    | some v =>
      simp only [processLine, hc, hv, Except.ok.injEq] at h
      subst h
      simp
  | command p t =>
    simp only [processLine, hc, Except.ok.injEq] at h
    subst h
    simp [echo_console_line, echo_typing]
  | _ =>
    simp only [processLine, hc, Except.ok.injEq] at h
    subst h
    simp

/-- C6: a `#timeout:` line whose trimmed remainder does not parse as a
float aborts the run at that line: the events of all strictly earlier
lines remain exactly as emitted and no event is produced for the offending
line or any later line. -/
theorem claim_C6 (step : ℚ) (i : ℕ) (pre post : List String)
    (bad raw : String) (st0 st1 : EngineState)
    (hpre : runLines step i pre st0 = (st1, false))
    (hbad : classify (i + pre.length) bad = .timeoutDir raw)
    (hparse : parseF64 (trimS raw) = none) :
    runLines step i (pre ++ bad :: post) st0 = (st1, true) := by
  induction pre generalizing i st0 with
  | nil =>
    simp only [runLines, Prod.mk.injEq] at hpre
    obtain ⟨rfl, -⟩ := hpre
    simp only [List.length_nil, Nat.add_zero] at hbad
    simp only [List.nil_append, runLines, processLine, hbad, hparse]
  | cons l ls ih =>
    simp only [runLines] at hpre ⊢
    cases hp : processLine step i l st0 with
    | ok stm =>
      rw [hp] at hpre
      have hbad2 : classify ((i + 1) + ls.length) bad = .timeoutDir raw := by
        rw [show (i + 1) + ls.length = i + (l :: ls).length by simp; omega]
        exact hbad
      exact ih (i + 1) stm hpre hbad2
    | error e =>
      rw [hp] at hpre
      simp at hpre

/-- Witness for C6: after the blank line the run reaches `#timeout: abc`
and aborts there, keeping the state accumulated so far and emitting
nothing for the later command line. -/
theorem claim_C6_witness :
    runLines (1/10) 0 ([""] ++ "#timeout: abc" :: ["$ x"]) (initialState (1/10))
      = (⟨F.fin (3 * (1/10) + 3 * (1/10)), [], []⟩, true) :=
  claim_C6 (1/10) 0 [""] ["$ x"] "#timeout: abc" " abc"
    (initialState (1/10)) ⟨F.fin (3 * (1/10) + 3 * (1/10)), [], []⟩
    rfl (by decide) (by decide)

/-- C8: preview lines are appended exactly for command and plain lines, in
the same relative order as those input lines, and never for a comment,
timeout, clear or blank line — per processed line and across every
successful run. -/
theorem claim_C8 :
    (∀ (step : ℚ) (i : ℕ) (ls : List String) (st st' : EngineState),
      runLines step i ls st = (st', false) →
        st'.previews = st.previews ++ previewsSpec i ls)
    ∧ (∀ (step : ℚ) (i : ℕ) (line : String) (st st' : EngineState),
      processLine step i line st = .ok st' →
        st'.previews = st.previews ++
          (match classify i line with
           | .command p t => [[p, t]]
           | .plain t => [[t]]
           | _ => [])) := by
  constructor
  · intro step i ls st st' h
    induction ls generalizing i st with
    | nil =>
      simp only [runLines, Prod.mk.injEq] at h
      obtain ⟨rfl, -⟩ := h
      simp [previewsSpec]
    | cons l ls ih =>
      simp only [runLines] at h
      cases hp : processLine step i l st with
      | ok stm =>
        rw [hp] at h
        rw [ih (i + 1) stm h, processLine_previews step i l st stm hp,
          previewsSpec, List.append_assoc]
      | error e =>
        rw [hp] at h
        simp at h
  · exact processLine_previews

/-- Witness for C8 at a concrete successful run over all line kinds. -/
theorem claim_C8_witness :
    (runLines (1/10) 0 ["$ ls", "# c", "hi", "--", ""]
        (initialState (1/10))).1.previews
      = (initialState (1/10)).previews
        ++ previewsSpec 0 ["$ ls", "# c", "hi", "--", ""] :=
  claim_C8.1 (1/10) 0 ["$ ls", "# c", "hi", "--", ""] (initialState (1/10))
    (runLines (1/10) 0 ["$ ls", "# c", "hi", "--", ""]
      (initialState (1/10))).1 rfl

/-- C9: a `#timeout:` line is fatal exactly when the trimmed remainder is
not a valid float literal; negative values such as `-3` and non-finite
values such as `inf` and `NaN` parse successfully and are added to the
cursor, so a negative timeout moves the cursor backwards (here to a
negative time) and a `NaN` timeout poisons the cursor so that every
subsequently emitted timestamp is `NaN`. -/
theorem claim_C9 :
    (∀ (step : ℚ) (i : ℕ) (line raw : String) (st : EngineState),
      classify i line = .timeoutDir raw →
        (processLine step i line st = .error () ↔ parseF64 (trimS raw) = none))
    ∧ (∀ (step : ℚ) (i : ℕ) (line raw : String) (v : F) (st : EngineState),
      classify i line = .timeoutDir raw → parseF64 (trimS raw) = some v →
        processLine step i line st = .ok { st with time := st.time + v })
    ∧ parseF64 "-3" = some (F.fin (-3))
    ∧ parseF64 "inf" = some F.inf
    ∧ parseF64 "NaN" = some F.nan
    ∧ (runScenario (1/10) ["#timeout: -3"]).1.time = F.fin (3 * (1/10) + -3)
    ∧ (3 * (1/10 : ℚ) + -3 < 0)
    ∧ (∀ (step : ℚ) (i : ℕ) (ls : List String) (st : EngineState),
      st.time = F.nan →
        (runLines step i ls st).1.time = F.nan
        ∧ ∀ e ∈ (runLines step i ls st).1.events,
            e ∈ st.events ∨ e.time = F.nan) := by
  have hn3 : parseF64 "-3"
      = some (F.fin (-((digitsVal ['3'] : ℚ) * 10 ^ (0 : ℤ)))) := rfl
  rw [show digitsVal ['3'] = 3 from by decide] at hn3
  norm_num at hn3
  have hp3 : parseF64 (trimS " -3")
      = some (F.fin (-((digitsVal ['3'] : ℚ) * 10 ^ (0 : ℤ)))) := rfl
  rw [show digitsVal ['3'] = 3 from by decide] at hp3
  norm_num at hp3
  refine ⟨?_, ?_, hn3, rfl, rfl, ?_, by norm_num, ?_⟩
  · intro step i line raw st hc
    cases hv : parseF64 (trimS raw) with
    | none => simp [processLine, hc, hv]
    | some v => simp [processLine, hc, hv]
  · intro step i line raw v st hc hv
    simp [processLine, hc, hv]
  · simp only [runScenario, runLines, processLine, initialState,
      show classify 0 "#timeout: -3" = CLine.timeoutDir " -3" from by decide,
      hp3, F.fin_add_fin]
  · intro step i ls st ht
    exact runLines_nan step i ls st ht

/-- Witness for C9: the malformed value `abc` is fatal exactly because it
does not parse, and with a `NaN` cursor a command line emits only `NaN`
timestamps. -/
theorem claim_C9_witness :
    ((processLine (1/10) 1 "#timeout: abc" (initialState (1/10))
        = Except.error ())
      ↔ parseF64 (trimS " abc") = none)
    ∧ (runLines (1/10) 0 ["$ a"]
        (⟨F.nan, [], []⟩ : EngineState)).1.time = F.nan :=
  ⟨claim_C9.1 (1/10) 1 "#timeout: abc" " abc" (initialState (1/10)) (by decide),
   (claim_C9.2.2.2.2.2.2.2 (1/10) 0 ["$ a"] ⟨F.nan, [], []⟩ rfl).1⟩

end Scenario
